import Mathlib

/-!
Verification of the NYT Letterboxed solver core (`letterbox.py`).

Words and dictionary entries are modelled as `List Char`, Python sets of
letters as `Finset Char`, and Python dicts as association lists (insertion
order preserved, first matching key wins, updates keep the key's position,
new keys are appended — matching CPython dict semantics for the operations
the program performs).

Recursive functions that Python bounds by data (trie depth, the
`max_length` chain bound) are defined through a fuel parameter whose value
is the exact bound the source code provides; unfolding theorems
(`find_words_eq`, `find_solutions_eq`) prove that the wrapped definitions
satisfy the source program's recurrences, so the embedding computes and can
be evaluated by `decide`.
-/

/-- Association list lookup, modelling read access `d[k]`/`k in d` on a Python dict. -/
def alook {α β : Type} [DecidableEq α] : List (α × β) → α → Option β
  | [], _ => none
  | (k, v) :: tl, key => if k = key then some v else alook tl key

/-- Association list update, modelling `d[k] = v` on a Python dict: an existing
key keeps its position, a new key is appended at the end. -/
def aset {α β : Type} [DecidableEq α] : List (α × β) → α → β → List (α × β)
  | [], key, v => [(key, v)]
  | (k, w) :: tl, key, v =>
      if k = key then (k, v) :: tl else (k, w) :: aset tl key v

-- Trie node (`TrieNode` in the source) with its children dict inlined as the
-- mutually defined `TrieChildren` association list (insertion-ordered, like a
-- Python dict from next letter to child node). The source also stores the edge
-- letter in each node, but that field is never read by any code path, so it
-- is omitted.
mutual

inductive TrieNode where
  | mk (is_word : Bool) (children : TrieChildren)

inductive TrieChildren where
  | nil
  | cons (letter : Char) (child : TrieNode) (rest : TrieChildren)

end

/-- Whether a complete word terminates at this node. -/
def TrieNode.is_word : TrieNode → Bool
  | .mk b _ => b

/-- The children dict of a node. -/
def TrieNode.children : TrieNode → TrieChildren
  | .mk _ cs => cs

/-- Children dict lookup, modelling `letter in node.children` plus
`node.children[letter]`. -/
def childFor : TrieChildren → Char → Option TrieNode
  | .nil, _ => none
  | .cons k t rest, letter => if k = letter then some t else childFor rest letter

/-- Children dict update, modelling `node.children[letter] = child`: an
existing key keeps its position, a new key is appended at the end. -/
def setChild : TrieChildren → Char → TrieNode → TrieChildren
  | .nil, letter, node => .cons letter node .nil
  | .cons k t rest, letter, node =>
      if k = letter then .cons k node rest else .cons k t (setChild rest letter node)

-- Number of nodes, the termination measure for trie traversals.
mutual

def TrieNode.size : TrieNode → Nat
  | .mk _ cs => 1 + cs.size

def TrieChildren.size : TrieChildren → Nat
  | .nil => 0
  | .cons _ t rest => 1 + t.size + rest.size

end

/-- Add a word to the trie (`insert_word` in the source): walk or create one
node per letter and mark the final node as a word. -/
def insert_word : TrieNode → List Char → TrieNode
  | node, [] => .mk true node.children
  | node, letter :: remainder =>
      let child := (childFor node.children letter).getD (.mk false .nil)
      .mk node.is_word (setChild node.children letter (insert_word child remainder))

/-- Does the trie contain this exact string as a marked word?  (Follows the
path from this node and reads `is_word` at the end; an absent child means the
string is not in the trie.) -/
def TrieNode.mem : TrieNode → List Char → Bool
  | node, [] => node.is_word
  | node, c :: rest =>
      ((childFor node.children c).map fun child => child.mem rest).getD false

/-- Build the trie from the dictionary (`build_trie` in the source), silently
filtering out words that contain the separator character or use a letter
that is not available in the puzzle. -/
def build_trie (dictionary : List (List Char)) (available_letters : Finset Char) : TrieNode :=
  dictionary.foldl
    (fun trie word =>
      if ('-' : Char) ∈ word then trie
      else if ∀ c ∈ word, c ∈ available_letters then insert_word trie word
      else trie)
    (.mk false .nil)

/-- Fuel-indexed body of `find_words`; the fuel only has to dominate the trie
size, and `find_words` instantiates it with the size of the node. -/
def find_wordsF : Nat → List (List Char) → List Char → TrieNode → Nat → List (List Char)
  | 0, _, _, _, _ => []
  | fuel + 1, sides, word, word_node, from_side =>
      (sides.enum.flatMap fun si =>
        if si.1 = from_side then []
        else
          si.2.flatMap fun letter =>
            match childFor word_node.children letter with
            | none => []
            | some child => find_wordsF fuel sides (word ++ [letter]) child si.1) ++
      (if word_node.is_word = true ∧ 3 ≤ word.length then [word] else [])

/-- Candidate discovery (`find_words` in the source): find every complete word
extending `word` whose traversal alternates sides, recording the accumulated
string whenever the node is a word and the string has length at least 3.
The theorem `find_words_eq` shows this satisfies the source recurrence. -/
def find_words (sides : List (List Char)) (word : List Char) (word_node : TrieNode)
    (from_side : Nat) : List (List Char) :=
  find_wordsF word_node.size sides word word_node from_side

/-- A (possibly partial) solution: its word chain and the set of covered letters. -/
structure Solution where
  words : List (List Char)
  coverage : Finset Char
deriving DecidableEq

/-- How many words in this solution. -/
def Solution.length (s : Solution) : Nat := s.words.length

/-- How many letters covered by this solution. -/
def Solution.coverage_length (s : Solution) : Nat := s.coverage.card

/-- Whether this solution solves the puzzle by covering all letters. -/
def Solution.solves (s : Solution) (available_letters : Finset Char) : Prop :=
  s.coverage = available_letters

instance (s : Solution) (available_letters : Finset Char) :
    Decidable (s.solves available_letters) :=
  inferInstanceAs (Decidable (_ = _))

/-- All solutions found so far, bucketed by length, together with the set of
words already used by some completed solution of each length (`Solutions`
in the source). -/
structure Solutions where
  by_length : List (Nat × List Solution)
  words_so_far_by_length : List (Nat × Finset (List Char))
deriving DecidableEq

/-- The store the search starts from: no solutions at any length. -/
def Solutions.empty : Solutions := ⟨[], []⟩

/-- The bucket of completed solutions of a given length (empty when the length
was never inserted). -/
def Solutions.sols_at (sols : Solutions) (for_length : Nat) : List Solution :=
  (alook sols.by_length for_length).getD []

/-- How many solutions of the given length (`Solutions.count` in the source). -/
def Solutions.count (sols : Solutions) (for_length : Nat) : Nat :=
  (sols.sols_at for_length).length

/-- The set of words used by completed solutions of the given length
(`Solutions.words_so_far` in the source). -/
def Solutions.words_so_far (sols : Solutions) (for_length : Nat) : Finset (List Char) :=
  (alook sols.words_so_far_by_length for_length).getD ∅

/-- Insert a completed solution (`Solutions.insert` in the source): append it
to its length bucket and union its words into that length's used-word set. -/
def Solutions.insert (sols : Solutions) (s : Solution) : Solutions where
  by_length := aset sols.by_length s.length (sols.sols_at s.length ++ [s])
  words_so_far_by_length :=
    aset sols.words_so_far_by_length s.length (sols.words_so_far s.length ∪ s.words.toFinset)

/-- Stable insertion into a list sorted by descending word length: the helper
for `sortDesc`. -/
def insertDesc (w : List Char) : List (List Char) → List (List Char)
  | [] => [w]
  | v :: tl => if w.length < v.length then v :: insertDesc w tl else w :: v :: tl

/-- Stable sort by descending word length, the semantics of Python's
`words.sort(key=len, reverse=True)`. -/
def sortDesc (l : List (List Char)) : List (List Char) := l.foldr insertDesc []

/-- A puzzle instance: its full letter alphabet and the dict from each
starting letter to the (longest-first) candidate words. A letter that starts
no trie word is absent from the dict, exactly as in `Puzzle.__init__`. -/
structure Puzzle where
  all_letters : Finset Char
  all_possible_words : List (Char × List (List Char))
deriving DecidableEq

/-- Build a puzzle from a dictionary and sides (`Puzzle.__init__` in the source). -/
def Puzzle.build (dictionary : List (List Char)) (sides : List (List Char)) : Puzzle :=
  let all_letters : Finset Char := sides.flatten.toFinset
  let trie := build_trie dictionary all_letters
  let apw := sides.enum.foldl
    (fun acc si =>
      si.2.foldl
        (fun acc2 letter =>
          match childFor trie.children letter with
          | none => acc2
          | some child =>
              aset acc2 letter (sortDesc (find_words sides [letter] child si.1)))
        acc)
    []
  ⟨all_letters, apw⟩

/-- Search bound: stop searching a length once this many solutions are stored. -/
def max_count : Nat := 10

/-- Search bound: never extend a chain that already has this many words. -/
def max_length : Nat := 5

/-- Coverage policy flag, always enabled in the source. -/
def only_increase_coverage : Bool := true

/-- The candidate loop of `find_solutions` (the `for new_word in all_words`
body), parameterised by the recursive call `recur`.  Returns the updated
store and `true` for normal termination, or `false` when the Python code
would raise an uncaught exception. -/
def find_loop (recur : Solutions → Solution → Char → Solutions × Bool) (puzzle : Puzzle)
    (current_solution : Solution) :
    Solutions → List (List Char) → Solutions × Bool
  | solutions, [] => (solutions, true)
  | solutions, new_word :: rest =>
      let updated_coverage := current_solution.coverage ∪ new_word.toFinset
      if only_increase_coverage = true ∧
          updated_coverage.card ≤ current_solution.coverage_length then
        (solutions, true)
      else
        let s : Solution := ⟨current_solution.words ++ [new_word], updated_coverage⟩
        let words_found := solutions.words_so_far s.length
        if s.words.any fun word => decide (word ∈ words_found) then
          find_loop recur puzzle current_solution solutions rest
        else if s.solves puzzle.all_letters then
          (solutions.insert s, true)
        else
          match new_word.getLast? with
          | none => (solutions, false)
          | some last_letter =>
              match recur solutions s last_letter with
              | (solutions2, true) => find_loop recur puzzle current_solution solutions2 rest
              | (solutions2, false) => (solutions2, false)

/-- Fuel-indexed body of `find_solutions`.  Fuel `0` corresponds exactly to
the `current_solution.length() >= max_length` early return, because
`find_solutions` instantiates the fuel with `max_length - length`. -/
def find_solutions_go : Nat → Solutions → Puzzle → Solution → Char → Solutions × Bool
  | 0, solutions, _, _, _ => (solutions, true)
  | fuel + 1, solutions, puzzle, current_solution, starting_letter =>
      if max_count ≤ solutions.count (current_solution.length + 1) then (solutions, true)
      else
        match alook puzzle.all_possible_words starting_letter with
        | none => (solutions, false)
        | some all_words =>
            find_loop (fun so s c => find_solutions_go fuel so puzzle s c) puzzle
              current_solution solutions all_words

/-- The search engine (`find_solutions` in the source).  The second component
is `true` for normal termination and `false` when the Python code raises
(a `KeyError` on a starting letter absent from `all_possible_words`, or an
`IndexError` on `new_word[-1]` for an empty word).  The theorem
`find_solutions_eq` shows this satisfies the source recurrence. -/
def find_solutions (solutions : Solutions) (puzzle : Puzzle) (current_solution : Solution)
    (starting_letter : Char) : Solutions × Bool :=
  find_solutions_go (max_length - current_solution.length) solutions puzzle current_solution
    starting_letter

/-- The solving loop of `main`: run the search once per puzzle letter, in side
order, aborting if an exception propagates. -/
def run_letters (puzzle : Puzzle) : Solutions → List Char → Solutions × Bool
  | solutions, [] => (solutions, true)
  | solutions, letter :: rest =>
      match find_solutions solutions puzzle ⟨[], ∅⟩ letter with
      | (solutions2, true) => run_letters puzzle solutions2 rest
      | (solutions2, false) => (solutions2, false)

/-- One full run of the solver on a dictionary and sides, as `main` performs it. -/
def solve (dictionary : List (List Char)) (sides : List (List Char)) : Solutions × Bool :=
  run_letters (Puzzle.build dictionary sides) Solutions.empty sides.flatten

-- Concrete instances used by witnesses.

/-- Scenario sides from the spec's literal test: three pairwise disjoint sides. -/
def c8Sides : List (List Char) := [['c', 'b'], ['a', 'i'], ['t', 'g']]

/-- Scenario dictionary from the spec's literal test. -/
def c8Dict : List (List Char) := [['c', 'a', 't'], ['t', 'a', 'b']]

/-- A one-word puzzle used by witnesses: sides `a` / `b`, dictionary `aba`. -/
def abaPuzzle : Puzzle := Puzzle.build [['a', 'b', 'a']] [['a'], ['b']]

/-- The single solution of `abaPuzzle`. -/
def abaSolution : Solution := ⟨[['a', 'b', 'a']], (['a', 'b', 'a'] : List Char).toFinset⟩

-- Invariants of the search, used to state the claims.

/-- A word chain is valid when each word starts with the previous word's last
letter. -/
def chain_ok (words : List (List Char)) : Prop :=
  words.Chain' fun w1 w2 => w1.getLast? = w2.head?

/-- A candidate index is well-formed when the list stored under a letter
contains only words beginning with that letter. -/
def good_puzzle (p : Puzzle) : Prop :=
  ∀ c ws, alook p.all_possible_words c = some ws → ∀ w ∈ ws, w.head? = some c

/-- Every stored solution is a valid chain. -/
def store_chained (sols : Solutions) : Prop :=
  ∀ L, ∀ s ∈ sols.sols_at L, chain_ok s.words

/-- The deduplication invariant: solutions stored at the same length are
pairwise word-disjoint, and every stored word is recorded in that length's
used-word set. -/
def dedup_inv (sols : Solutions) : Prop :=
  ∀ L, ((sols.sols_at L).Pairwise fun s1 s2 => ∀ w ∈ s1.words, w ∉ s2.words) ∧
    ∀ s ∈ sols.sols_at L, ∀ w ∈ s.words, w ∈ sols.words_so_far L

/-- Every stored solution has pairwise-distinct words and no more words than
the puzzle has letters. -/
def sized_inv (p : Puzzle) (sols : Solutions) : Prop :=
  ∀ L, ∀ s ∈ sols.sols_at L, s.words.Nodup ∧ s.words.length ≤ p.all_letters.card

/-- Side-alternating extension: each next letter lies on some side different
from the side of the previous step, starting from side `from_side`. -/
def extAlt (sides : List (List Char)) : Nat → List Char → Prop
  | _, [] => True
  | from_side, c :: rest =>
      ∃ i side, sides[i]? = some side ∧ i ≠ from_side ∧ c ∈ side ∧ extAlt sides i rest

/-- The spec's side-alternation property of a word: no two consecutive letters
lie on the same side of the puzzle. -/
def sideAlt (sides : List (List Char)) (w : List Char) : Prop :=
  w.Chain' fun a b => ∀ side ∈ sides, ¬(a ∈ side ∧ b ∈ side)

/-- Sides are pairwise letter-disjoint (the puzzle precondition). -/
def sides_disjoint (sides : List (List Char)) : Prop :=
  sides.Pairwise fun s1 s2 => ∀ c ∈ s1, c ∉ s2

instance (sides : List (List Char)) : Decidable (sides_disjoint sides) :=
  inferInstanceAs (Decidable (List.Pairwise _ _))

/-- The subtree of the scenario trie reached from the root by `c`. -/
def c8TrieC : TrieNode :=
  .mk false (.cons 'a' (.mk false (.cons 't' (.mk true .nil) .nil)) .nil)

-- Association list laws.

theorem alook_aset {α β : Type} [DecidableEq α] (m : List (α × β)) (k : α) (v : β) (key : α) :
    alook (aset m k v) key = if key = k then some v else alook m key := by
  induction m with
  | nil =>
      by_cases h : key = k
      · subst h; simp [aset, alook]
      · have h' : ¬k = key := fun hh => h hh.symm
        simp [aset, alook, h, h']
  | cons hd tl ih =>
      obtain ⟨k1, v1⟩ := hd
      by_cases h1 : k1 = k
      · subst h1
        by_cases h2 : key = k1
        · subst h2; simp [aset, alook]
        · have h2' : ¬k1 = key := fun hh => h2 hh.symm
          simp [aset, alook, h2, h2']
      · by_cases h2 : k1 = key
        · subst h2
          simp [aset, alook, h1]
        · simp [aset, alook, h1, h2, ih]

-- Store bucket laws: how `Solutions.insert` changes the three observers.

theorem sols_at_insert (sols : Solutions) (s : Solution) (L : Nat) :
    (sols.insert s).sols_at L =
      if L = s.length then sols.sols_at L ++ [s] else sols.sols_at L := by
  by_cases h : L = s.length
  · subst h; simp [Solutions.insert, Solutions.sols_at, alook_aset]
  · simp [Solutions.insert, Solutions.sols_at, alook_aset, h]

theorem count_insert (sols : Solutions) (s : Solution) (L : Nat) :
    (sols.insert s).count L =
      if L = s.length then sols.count L + 1 else sols.count L := by
  simp only [Solutions.count, sols_at_insert]
  by_cases h : L = s.length <;> simp [h]

theorem words_so_far_insert (sols : Solutions) (s : Solution) (L : Nat) :
    (sols.insert s).words_so_far L =
      if L = s.length then sols.words_so_far L ∪ s.words.toFinset
      else sols.words_so_far L := by
  by_cases h : L = s.length
  · subst h; simp [Solutions.insert, Solutions.words_so_far, alook_aset]
  · simp [Solutions.insert, Solutions.words_so_far, alook_aset, h]

/-- Claim C7: with `only_increase_coverage` enabled, as soon as one candidate
fails to strictly increase the coverage, the candidate loop returns
immediately: the failing word and every remaining candidate after it are
neither extended, recursed into, nor recorded, and the store is returned
untouched (for every possible recursive continuation `recur`). -/
theorem spec_c7 (recur : Solutions → Solution → Char → Solutions × Bool) (puzzle : Puzzle)
    (current_solution : Solution) (solutions : Solutions) (new_word : List Char)
    (rest : List (List Char))
    (h : (current_solution.coverage ∪ new_word.toFinset).card ≤
      current_solution.coverage_length) :
    find_loop recur puzzle current_solution solutions (new_word :: rest) =
      (solutions, true) := by
  simp [find_loop, only_increase_coverage, h]

/-- Witness for C7 at a concrete input. -/
theorem spec_c7_witness :
    (((⟨[['a']], {'a'}⟩ : Solution).coverage ∪ (['a'] : List Char).toFinset).card ≤
        (⟨[['a']], {'a'}⟩ : Solution).coverage_length) ∧
      find_loop (fun so _ _ => (so, true)) abaPuzzle ⟨[['a']], {'a'}⟩ Solutions.empty
          [['a']] = (Solutions.empty, true) :=
  ⟨by decide, spec_c7 _ _ _ _ _ _ (by decide)⟩

/-- Claim C6: contrary to the claim, a starting letter that is absent from the
candidate index is not skipped silently: `find_solutions` hits an uncaught
`KeyError` (modelled by the `false` flag), here on the empty dictionary where
no letter has candidates. -/
theorem spec_c6 :
    find_solutions Solutions.empty (Puzzle.build [] [['a', 'b']]) ⟨[], ∅⟩ 'a' =
      (Solutions.empty, false) := by decide

/-- Claim C8: in the literal scenario, candidate discovery from `c` does find
`cat` (first conjunct), but the full run does not terminate normally: the
chain `cat`-`tab` continues from letter `b`, which has no entry in the
candidate index, so the run aborts with a `KeyError` (the `false` flag) —
with the store still empty, since no chain covered the whole alphabet. -/
theorem spec_c8 :
    alook (Puzzle.build c8Dict c8Sides).all_possible_words 'c' = some [['c', 'a', 't']] ∧
      solve c8Dict c8Sides = (Solutions.empty, false) := by
  exact ⟨by decide, by decide⟩

-- Machinery for Claim C2: membership in the store after a search step.

theorem find_loop_mem_sols_at
    (recur : Solutions → Solution → Char → Solutions × Bool) (p : Puzzle) (cur : Solution)
    (hrec : ∀ so s c L x, x ∈ ((recur so s c).1).sols_at L →
      x ∈ so.sols_at L ∨ x.coverage = p.all_letters) :
    ∀ ws so L x, x ∈ ((find_loop recur p cur so ws).1).sols_at L →
      x ∈ so.sols_at L ∨ x.coverage = p.all_letters := by
  intro ws
  induction ws with
  | nil => intro so L x h; exact .inl h
  | cons w rest ih =>
      intro so L x h
      simp only [find_loop] at h
      split at h
      · exact .inl h
      · split at h
        · exact ih so L x h
        · split at h
          · rename_i hsolves
            rw [sols_at_insert] at h
            split at h
            · rcases List.mem_append.mp h with h1 | h1
              · exact .inl h1
              · right
                rw [List.mem_singleton.mp h1]
                exact hsolves
            · exact .inl h
          · split at h
            · exact .inl h
            · split at h
              · rename_i c hc so2 heq
                rcases ih so2 L x h with h1 | h1
                · rcases hrec so _ _ L x (by rw [heq]; exact h1) with h2 | h2
                  · exact .inl h2
                  · exact .inr h2
                · exact .inr h1
              · rename_i c hc so2 heq
                rcases hrec so _ _ L x (by rw [heq]; exact h) with h2 | h2
                · exact .inl h2
                · exact .inr h2

theorem find_solutions_go_mem_sols_at (p : Puzzle) :
    ∀ fuel so cur letter L x, x ∈ ((find_solutions_go fuel so p cur letter).1).sols_at L →
      x ∈ so.sols_at L ∨ x.coverage = p.all_letters := by
  intro fuel
  induction fuel with
  | zero => intro so cur letter L x h; exact .inl h
  | succ fuel ih =>
      intro so cur letter L x h
      simp only [find_solutions_go] at h
      split at h
      · exact .inl h
      · split at h
        · exact .inl h
        · exact find_loop_mem_sols_at _ p cur
            (fun so2 s c L2 x2 hx => ih so2 s c L2 x2 hx) _ so L x h

/-- Claim C2: a solution present in the store after a search call either was
already in the store or has coverage exactly equal to the puzzle's full
letter alphabet — so every solution the search ever inserts is complete,
never partial. -/
theorem spec_c2 (solutions : Solutions) (puzzle : Puzzle) (current_solution : Solution)
    (starting_letter : Char) (L : Nat) (s : Solution)
    (h : s ∈ ((find_solutions solutions puzzle current_solution starting_letter).1).sols_at L) :
    s ∈ solutions.sols_at L ∨ s.coverage = puzzle.all_letters :=
  find_solutions_go_mem_sols_at puzzle _ solutions current_solution starting_letter L s h

/-- Witness for C2 at a concrete input. -/
theorem spec_c2_witness :
    abaSolution ∈ ((find_solutions Solutions.empty abaPuzzle ⟨[], ∅⟩ 'a').1).sols_at 1 ∧
      (abaSolution ∈ Solutions.empty.sols_at 1 ∨
        abaSolution.coverage = abaPuzzle.all_letters) :=
  ⟨by decide, spec_c2 Solutions.empty abaPuzzle ⟨[], ∅⟩ 'a' 1 abaSolution (by decide)⟩

-- Machinery for Claim C5: counts at lengths up to the current chain length
-- are untouched, and the per-length bucket never exceeds `max_count`.

theorem find_loop_count_low
    (recur : Solutions → Solution → Char → Solutions × Bool) (p : Puzzle) (cur : Solution)
    (hrec : ∀ so s c L, L ≤ s.length → ((recur so s c).1).count L = so.count L) :
    ∀ ws so L, L ≤ cur.length →
      ((find_loop recur p cur so ws).1).count L = so.count L := by
  intro ws
  induction ws with
  | nil => intro so L _; rfl
  | cons w rest ih =>
      intro so L hL
      have hLw : L ≤ cur.words.length := hL
      have hne : ¬L = (⟨cur.words ++ [w], cur.coverage ∪ w.toFinset⟩ : Solution).length := by
        show ¬L = (cur.words ++ [w]).length
        simp only [List.length_append, List.length_cons, List.length_nil]
        omega
      have hstep : ∀ cc,
          ((recur so ⟨cur.words ++ [w], cur.coverage ∪ w.toFinset⟩ cc).1).count L =
            so.count L := by
        intro cc
        refine hrec so _ cc L ?_
        show L ≤ (cur.words ++ [w]).length
        simp only [List.length_append, List.length_cons, List.length_nil]
        omega
      simp only [find_loop]
      split
      · rfl
      · split
        · exact ih so L hL
        · split
          · rw [count_insert]
            simp [hne]
          · split
            · rfl
            · split
              · rename_i ll c hc so2 heq
                rw [ih so2 L hL]
                have h3 := hstep ll
                rw [heq] at h3
                exact h3
              · rename_i ll c hc so2 heq
                have h3 := hstep ll
                rw [heq] at h3
                exact h3

theorem find_solutions_go_count_low (p : Puzzle) :
    ∀ fuel so cur letter L, L ≤ cur.length →
      ((find_solutions_go fuel so p cur letter).1).count L = so.count L := by
  intro fuel
  induction fuel with
  | zero => intro so cur letter L _; rfl
  | succ fuel ih =>
      intro so cur letter L hL
      simp only [find_solutions_go]
      split
      · rfl
      · split
        · rfl
        · exact find_loop_count_low _ p cur
            (fun so2 s c L2 hL2 => ih so2 s c L2 hL2) _ so L hL

theorem find_loop_count_bound
    (recur : Solutions → Solution → Char → Solutions × Bool) (p : Puzzle) (cur : Solution)
    (hrec_bound : ∀ so s c, (∀ L, so.count L ≤ max_count) →
      ∀ L, ((recur so s c).1).count L ≤ max_count)
    (hrec_low : ∀ so s c L, L ≤ s.length → ((recur so s c).1).count L = so.count L) :
    ∀ ws so, (∀ L, so.count L ≤ max_count) → so.count (cur.length + 1) < max_count →
      ∀ L, ((find_loop recur p cur so ws).1).count L ≤ max_count := by
  intro ws
  induction ws with
  | nil => intro so hso _ L; exact hso L
  | cons w rest ih =>
      intro so hso hstrict L
      have hslen : (⟨cur.words ++ [w], cur.coverage ∪ w.toFinset⟩ : Solution).length =
          cur.length + 1 := by
        simp [Solution.length]
      have hlowstep : ∀ cc L2, L2 ≤ cur.length + 1 →
          ((recur so ⟨cur.words ++ [w], cur.coverage ∪ w.toFinset⟩ cc).1).count L2 =
            so.count L2 := by
        intro cc L2 hL2
        refine hrec_low so _ cc L2 ?_
        rw [hslen]
        exact hL2
      have hboundstep : ∀ cc L2,
          ((recur so ⟨cur.words ++ [w], cur.coverage ∪ w.toFinset⟩ cc).1).count L2 ≤
            max_count :=
        fun cc L2 => hrec_bound so _ cc hso L2
      simp only [find_loop]
      split
      · exact hso L
      · split
        · exact ih so hso hstrict L
        · split
          · rw [count_insert]
            split
            · rename_i hLeq
              rw [hLeq, hslen]
              omega
            · exact hso L
          · split
            · exact hso L
            · split
              · rename_i ll c hc so2 heq
                have hlow : ∀ L2, L2 ≤ cur.length + 1 → so2.count L2 = so.count L2 := by
                  intro L2 hL2
                  have h3 := hlowstep ll L2 hL2
                  rw [heq] at h3
                  exact h3
                have hbound2 : ∀ L2, so2.count L2 ≤ max_count := by
                  intro L2
                  have h3 := hboundstep ll L2
                  rw [heq] at h3
                  exact h3
                exact ih so2 hbound2
                  (by rw [hlow (cur.length + 1) (by omega)]; exact hstrict) L
              · rename_i ll c hc so2 heq
                have h3 := hboundstep ll L
                rw [heq] at h3
                exact h3

theorem find_solutions_go_count_bound (p : Puzzle) :
    ∀ fuel so cur letter, (∀ L, so.count L ≤ max_count) →
      ∀ L, ((find_solutions_go fuel so p cur letter).1).count L ≤ max_count := by
  intro fuel
  induction fuel with
  | zero => intro so cur letter hso L; exact hso L
  | succ fuel ih =>
      intro so cur letter hso L
      simp only [find_solutions_go]
      split
      · exact hso L
      · rename_i hlt
        split
        · exact hso L
        · exact find_loop_count_bound _ p cur
            (fun so2 s c hso2 L2 => ih so2 s c hso2 L2)
            (fun so2 s c L2 hL2 => find_solutions_go_count_low p fuel so2 s c L2 hL2)
            _ so hso (by omega) L

/-- Claim C5: if no length bucket of the store exceeds `max_count` completed
solutions, the same holds after any search call — the saturation check at
call entry together with the stop-after-first-completion rule keeps every
bucket at `max_count` (10) or fewer solutions at every point of the search. -/
theorem spec_c5 (solutions : Solutions) (puzzle : Puzzle) (current_solution : Solution)
    (starting_letter : Char)
    (h : ∀ L, solutions.count L ≤ max_count) :
    ∀ L, ((find_solutions solutions puzzle current_solution starting_letter).1).count L ≤
      max_count :=
  find_solutions_go_count_bound puzzle _ solutions current_solution starting_letter h

/-- Witness for C5 at a concrete input. -/
theorem spec_c5_witness :
    (∀ L, Solutions.empty.count L ≤ max_count) ∧
      ∀ L, ((find_solutions Solutions.empty abaPuzzle ⟨[], ∅⟩ 'a').1).count L ≤ max_count :=
  ⟨fun _ => Nat.zero_le _,
    spec_c5 Solutions.empty abaPuzzle ⟨[], ∅⟩ 'a' (fun _ => Nat.zero_le _)⟩

-- Machinery for Claim C4: the deduplication invariant is preserved.

theorem dedup_inv_insert (sols : Solutions) (s : Solution)
    (hso : dedup_inv sols)
    (habs : ∀ w ∈ s.words, w ∉ sols.words_so_far s.length) :
    dedup_inv (sols.insert s) := by
  intro L
  by_cases hLs : L = s.length
  · subst hLs
    constructor
    · rw [sols_at_insert, if_pos rfl, List.pairwise_append]
      refine ⟨(hso _).1, List.pairwise_singleton _ _, ?_⟩
      intro a ha b hb
      rw [List.mem_singleton] at hb
      subst hb
      intro w hw hws
      exact habs w hws ((hso _).2 a ha w hw)
    · intro x hx w hw
      rw [words_so_far_insert, if_pos rfl]
      rw [sols_at_insert, if_pos rfl] at hx
      rcases List.mem_append.mp hx with h1 | h1
      · exact Finset.mem_union_left _ ((hso _).2 x h1 w hw)
      · rw [List.mem_singleton] at h1
        subst h1
        exact Finset.mem_union_right _ (List.mem_toFinset.mpr hw)
  · constructor
    · rw [sols_at_insert, if_neg hLs]
      exact (hso L).1
    · intro x hx w hw
      rw [words_so_far_insert, if_neg hLs]
      rw [sols_at_insert, if_neg hLs] at hx
      exact (hso L).2 x hx w hw

theorem find_loop_dedup
    (recur : Solutions → Solution → Char → Solutions × Bool) (p : Puzzle) (cur : Solution)
    (hrec : ∀ so s c, dedup_inv so → dedup_inv ((recur so s c).1)) :
    ∀ ws so, dedup_inv so → dedup_inv ((find_loop recur p cur so ws).1) := by
  intro ws
  induction ws with
  | nil => intro so hso; exact hso
  | cons nw rest ih =>
      intro so hso
      simp only [find_loop]
      split
      · exact hso
      · split
        · exact ih so hso
        · split
          · rename_i hguard hsolves
            refine dedup_inv_insert so _ hso ?_
            intro x hx hmem
            exact hguard (List.any_eq_true.mpr ⟨x, hx, by simpa using hmem⟩)
          · split
            · exact hso
            · split
              · rename_i ll c hc so2 heq
                refine ih so2 ?_
                have h3 := hrec so ⟨cur.words ++ [nw], cur.coverage ∪ nw.toFinset⟩ ll hso
                rw [heq] at h3
                exact h3
              · rename_i ll c hc so2 heq
                have h3 := hrec so ⟨cur.words ++ [nw], cur.coverage ∪ nw.toFinset⟩ ll hso
                rw [heq] at h3
                exact h3

theorem find_solutions_go_dedup (p : Puzzle) :
    ∀ fuel so cur letter, dedup_inv so →
      dedup_inv ((find_solutions_go fuel so p cur letter).1) := by
  intro fuel
  induction fuel with
  | zero => intro so cur letter hso; exact hso
  | succ fuel ih =>
      intro so cur letter hso
      simp only [find_solutions_go]
      split
      · exact hso
      · split
        · exact hso
        · exact find_loop_dedup _ p cur (fun so2 s c hso2 => ih so2 s c hso2) _ so hso

/-- Claim C4: the deduplication invariant — solutions stored at the same chain
length are pairwise word-disjoint, and every stored word belongs to that
length's accumulated used-word set — is preserved by every search call
(a completed solution is only inserted when none of its words is in the
used-word set of its length), and inserting a solution records all of its
words in that set. -/
theorem spec_c4 (solutions : Solutions) (puzzle : Puzzle) (current_solution : Solution)
    (starting_letter : Char)
    (h : dedup_inv solutions) :
    dedup_inv ((find_solutions solutions puzzle current_solution starting_letter).1) ∧
      ∀ (so : Solutions) (s : Solution), ∀ w ∈ s.words,
        w ∈ (so.insert s).words_so_far s.length := by
  constructor
  · exact find_solutions_go_dedup puzzle _ solutions current_solution starting_letter h
  · intro so s w hw
    rw [words_so_far_insert, if_pos rfl]
    exact Finset.mem_union_right _ (List.mem_toFinset.mpr hw)

/-- Witness for C4 at a concrete input. -/
theorem spec_c4_witness :
    dedup_inv Solutions.empty ∧
      (dedup_inv ((find_solutions Solutions.empty abaPuzzle ⟨[], ∅⟩ 'a').1) ∧
        ∀ (so : Solutions) (s : Solution), ∀ w ∈ s.words,
          w ∈ (so.insert s).words_so_far s.length) :=
  ⟨fun _ => ⟨List.Pairwise.nil, fun s hs => absurd hs (List.not_mem_nil s)⟩,
    spec_c4 Solutions.empty abaPuzzle ⟨[], ∅⟩ 'a'
      (fun _ => ⟨List.Pairwise.nil, fun s hs => absurd hs (List.not_mem_nil s)⟩)⟩

-- Machinery for Claim C10: under the always-enabled coverage policy, a chain
-- only ever grows by words that strictly enlarge its coverage, so chains have
-- pairwise-distinct words and bounded length.

theorem find_loop_sized
    (recur : Solutions → Solution → Char → Solutions × Bool) (p : Puzzle) (cur : Solution)
    (hnd : cur.words.Nodup)
    (hsub : ∀ w ∈ cur.words, w.toFinset ⊆ cur.coverage)
    (hlen : cur.words.length ≤ cur.coverage.card)
    (hrec : ∀ so s c, sized_inv p so → s.words.Nodup →
      (∀ w ∈ s.words, w.toFinset ⊆ s.coverage) → s.words.length ≤ s.coverage.card →
      sized_inv p ((recur so s c).1)) :
    ∀ ws so, sized_inv p so → sized_inv p ((find_loop recur p cur so ws).1) := by
  intro ws
  induction ws with
  | nil => intro so hso; exact hso
  | cons nw rest ih =>
      intro so hso
      simp only [find_loop]
      split
      · exact hso
      · rename_i hcov
        have hcard : cur.coverage.card < (cur.coverage ∪ nw.toFinset).card := by
          rcases Nat.lt_or_ge cur.coverage.card (cur.coverage ∪ nw.toFinset).card with h | h
          · exact h
          · exact absurd ⟨rfl, h⟩ hcov
        have hnotmem : nw ∉ cur.words := by
          intro hmem
          have hu : cur.coverage ∪ nw.toFinset = cur.coverage :=
            Finset.union_eq_left.mpr (hsub nw hmem)
          rw [hu] at hcard
          omega
        have hnd2 : (cur.words ++ [nw]).Nodup := by
          rw [List.nodup_append]
          refine ⟨hnd, List.nodup_singleton _, ?_⟩
          intro a ha hb
          rw [List.mem_singleton] at hb
          subst hb
          exact hnotmem ha
        have hsub2 : ∀ w ∈ cur.words ++ [nw], w.toFinset ⊆ cur.coverage ∪ nw.toFinset := by
          intro x hx
          rcases List.mem_append.mp hx with h1 | h1
          · exact (hsub x h1).trans Finset.subset_union_left
          · rw [List.mem_singleton] at h1
            subst h1
            exact Finset.subset_union_right
        have hlen2 : (cur.words ++ [nw]).length ≤ (cur.coverage ∪ nw.toFinset).card := by
          rw [List.length_append]
          simp only [List.length_cons, List.length_nil]
          omega
        split
        · exact ih so hso
        · split
          · rename_i hguard hsolves
            intro L x hx
            rw [sols_at_insert] at hx
            split at hx
            · rcases List.mem_append.mp hx with h1 | h1
              · exact hso L x h1
              · rw [List.mem_singleton] at h1
                subst h1
                refine ⟨hnd2, ?_⟩
                have hcov2 : cur.coverage ∪ nw.toFinset = p.all_letters := hsolves
                calc (cur.words ++ [nw]).length ≤ (cur.coverage ∪ nw.toFinset).card := hlen2
                  _ = p.all_letters.card := by rw [hcov2]
            · exact hso L x hx
          · split
            · exact hso
            · split
              · rename_i ll c hc so2 heq
                refine ih so2 ?_
                have h3 := hrec so ⟨cur.words ++ [nw], cur.coverage ∪ nw.toFinset⟩ ll hso
                  hnd2 hsub2 hlen2
                rw [heq] at h3
                exact h3
              · rename_i ll c hc so2 heq
                have h3 := hrec so ⟨cur.words ++ [nw], cur.coverage ∪ nw.toFinset⟩ ll hso
                  hnd2 hsub2 hlen2
                rw [heq] at h3
                exact h3

theorem find_solutions_go_sized (p : Puzzle) :
    ∀ fuel so cur letter, cur.words.Nodup →
      (∀ w ∈ cur.words, w.toFinset ⊆ cur.coverage) →
      cur.words.length ≤ cur.coverage.card → sized_inv p so →
      sized_inv p ((find_solutions_go fuel so p cur letter).1) := by
  intro fuel
  induction fuel with
  | zero => intro so cur letter _ _ _ hso; exact hso
  | succ fuel ih =>
      intro so cur letter hnd hsub hlen hso
      simp only [find_solutions_go]
      split
      · exact hso
      · split
        · exact hso
        · exact find_loop_sized _ p cur hnd hsub hlen
            (fun so2 s c hso2 hnd2 hsub2 hlen2 => ih so2 s c hnd2 hsub2 hlen2 hso2) _ so hso

/-- Claim C10: with the coverage policy always enabled, a chain can never
reuse a word: starting from a partial solution whose words are distinct,
letter-covered and no more numerous than its coverage, every solution the
search stores has pairwise-distinct words and chain length at most the
alphabet size. -/
theorem spec_c10 (solutions : Solutions) (puzzle : Puzzle) (current_solution : Solution)
    (starting_letter : Char)
    (hnd : current_solution.words.Nodup)
    (hsub : ∀ w ∈ current_solution.words, w.toFinset ⊆ current_solution.coverage)
    (hlen : current_solution.words.length ≤ current_solution.coverage.card)
    (hstore : sized_inv puzzle solutions) :
    sized_inv puzzle ((find_solutions solutions puzzle current_solution starting_letter).1) :=
  find_solutions_go_sized puzzle _ solutions current_solution starting_letter hnd hsub hlen
    hstore

/-- Witness for C10 at a concrete input. -/
theorem spec_c10_witness :
    (⟨[], ∅⟩ : Solution).words.Nodup ∧
      (∀ w ∈ (⟨[], ∅⟩ : Solution).words, w.toFinset ⊆ (⟨[], ∅⟩ : Solution).coverage) ∧
      (⟨[], ∅⟩ : Solution).words.length ≤ (⟨[], ∅⟩ : Solution).coverage.card ∧
      sized_inv abaPuzzle Solutions.empty ∧
      sized_inv abaPuzzle ((find_solutions Solutions.empty abaPuzzle ⟨[], ∅⟩ 'a').1) :=
  ⟨List.nodup_nil, fun w hw => absurd hw (List.not_mem_nil w), Nat.zero_le _,
    fun _ s hs => absurd hs (List.not_mem_nil s),
    spec_c10 Solutions.empty abaPuzzle ⟨[], ∅⟩ 'a' List.nodup_nil
      (fun w hw => absurd hw (List.not_mem_nil w)) (Nat.zero_le _)
      (fun _ s hs => absurd hs (List.not_mem_nil s))⟩

-- Machinery for Claim C3: candidates start with their index letter, and every
-- stored solution is a valid chain.

theorem mem_insertDesc (w x : List Char) (l : List (List Char)) :
    x ∈ insertDesc w l ↔ x = w ∨ x ∈ l := by
  induction l with
  | nil => simp [insertDesc]
  | cons v tl ih =>
      simp only [insertDesc]
      split
      · simp only [List.mem_cons, ih]
        tauto
      · simp only [List.mem_cons]

theorem mem_sortDesc (x : List Char) (l : List (List Char)) : x ∈ sortDesc l ↔ x ∈ l := by
  induction l with
  | nil => simp [sortDesc]
  | cons v tl ih =>
      simp only [sortDesc, List.foldr] at ih ⊢
      rw [mem_insertDesc, ih, List.mem_cons]

theorem find_wordsF_mem_append :
    ∀ (fuel : Nat) (sides : List (List Char)) (word : List Char) (node : TrieNode)
      (fs : Nat) (w : List Char), w ∈ find_wordsF fuel sides word node fs →
      ∃ q, w = word ++ q := by
  intro fuel
  induction fuel with
  | zero => intro sides word node fs w h; simp [find_wordsF] at h
  | succ fuel ih =>
      intro sides word node fs w h
      simp only [find_wordsF] at h
      rw [List.mem_append] at h
      rcases h with h | h
      · rw [List.mem_flatMap] at h
        obtain ⟨si, hsi, h⟩ := h
        split at h
        · simp at h
        · rw [List.mem_flatMap] at h
          obtain ⟨letter, hletter, h⟩ := h
          split at h
          · simp at h
          · obtain ⟨q, hq⟩ := ih sides (word ++ [letter]) _ si.1 w h
            exact ⟨[letter] ++ q, by rw [hq, List.append_assoc]⟩
      · split at h
        · rw [List.mem_singleton] at h
          exact ⟨[], by rw [h, List.append_nil]⟩
        · simp at h

theorem find_words_mem_append (sides : List (List Char)) (word : List Char) (node : TrieNode)
    (fs : Nat) (w : List Char) (h : w ∈ find_words sides word node fs) :
    ∃ q, w = word ++ q :=
  find_wordsF_mem_append _ sides word node fs w h

theorem foldl_preserve {α σ : Type} (P : σ → Prop) (f : σ → α → σ)
    (hf : ∀ s a, P s → P (f s a)) : ∀ (l : List α) (s : σ), P s → P (l.foldl f s) := by
  intro l
  induction l with
  | nil => intro s hs; exact hs
  | cons a tl ih => intro s hs; exact ih (f s a) (hf s a hs)

theorem good_aset (m : List (Char × List (List Char))) (letter : Char)
    (ws0 : List (List Char))
    (hm : ∀ c ws, alook m c = some ws → ∀ w ∈ ws, w.head? = some c)
    (hws0 : ∀ w ∈ ws0, w.head? = some letter) :
    ∀ c ws, alook (aset m letter ws0) c = some ws → ∀ w ∈ ws, w.head? = some c := by
  intro c ws hlook
  rw [alook_aset] at hlook
  split at hlook
  · rename_i hck
    injection hlook with hlook
    subst hlook
    subst hck
    exact hws0
  · exact hm c ws hlook

theorem good_puzzle_build (dictionary sides : List (List Char)) :
    good_puzzle (Puzzle.build dictionary sides) := by
  have base : ∀ c ws, alook ([] : List (Char × List (List Char))) c = some ws →
      ∀ w ∈ ws, w.head? = some c := by
    intro c ws h
    simp [alook] at h
  have step : ∀ (tr : TrieNode) (acc : List (Char × List (List Char))) (si : Nat × List Char),
      (∀ c ws, alook acc c = some ws → ∀ w ∈ ws, w.head? = some c) →
      ∀ c ws, alook (si.2.foldl (fun acc2 letter =>
          match childFor tr.children letter with
          | none => acc2
          | some child => aset acc2 letter (sortDesc (find_words sides [letter] child si.1)))
        acc) c = some ws → ∀ w ∈ ws, w.head? = some c := by
    intro tr acc si hacc
    refine foldl_preserve (fun m => ∀ c ws, alook m c = some ws → ∀ w ∈ ws, w.head? = some c)
      _ ?_ si.2 acc hacc
    intro m letter hm
    cases hch : childFor tr.children letter with
    | none => exact hm
    | some child =>
        refine good_aset m letter _ hm ?_
        intro w hw
        rw [mem_sortDesc] at hw
        obtain ⟨q, hq⟩ := find_words_mem_append _ _ _ _ w hw
        rw [hq]
        rfl
  intro c ws hlook w hw
  refine foldl_preserve
    (fun m => ∀ c ws, alook m c = some ws → ∀ w ∈ ws, w.head? = some c)
    _ (fun acc si hacc => step (build_trie dictionary sides.flatten.toFinset) acc si hacc)
    sides.enum [] base c ws ?_ w hw
  exact hlook

theorem chain_ok_append (ws : List (List Char)) (nw : List Char)
    (hc : chain_ok ws) (hlink : ∀ u, ws.getLast? = some u → u.getLast? = nw.head?) :
    chain_ok (ws ++ [nw]) := by
  rw [chain_ok, List.chain'_append]
  refine ⟨hc, List.chain'_singleton _, ?_⟩
  intro x hx y hy
  have hx2 : ws.getLast? = some x := hx
  have hy2 : ([nw] : List (List Char)).head? = some y := hy
  injection hy2 with hy2
  subst hy2
  exact hlink x hx2

theorem find_loop_chained
    (recur : Solutions → Solution → Char → Solutions × Bool) (p : Puzzle) (cur : Solution)
    (letter : Char)
    (hcur : chain_ok cur.words)
    (hlink : ∀ u, cur.words.getLast? = some u → u.getLast? = some letter)
    (hrec : ∀ so s c, store_chained so → chain_ok s.words →
      (∀ u, s.words.getLast? = some u → u.getLast? = some c) →
      store_chained ((recur so s c).1)) :
    ∀ ws, (∀ w ∈ ws, w.head? = some letter) → ∀ so, store_chained so →
      store_chained ((find_loop recur p cur so ws).1) := by
  intro ws
  induction ws with
  | nil => intro _ so hso; exact hso
  | cons nw rest ih =>
      intro hws so hso
      have hnw : nw.head? = some letter := hws nw (List.mem_cons_self _ _)
      have hrest : ∀ w ∈ rest, w.head? = some letter :=
        fun w hw => hws w (List.mem_cons_of_mem _ hw)
      have hchain2 : chain_ok (cur.words ++ [nw]) := by
        refine chain_ok_append _ _ hcur ?_
        intro u hu
        rw [hnw]
        exact hlink u hu
      simp only [find_loop]
      split
      · exact hso
      · split
        · exact ih hrest so hso
        · split
          · rename_i hguard hsolves
            intro L x hx
            rw [sols_at_insert] at hx
            split at hx
            · rcases List.mem_append.mp hx with h1 | h1
              · exact hso L x h1
              · rw [List.mem_singleton] at h1
                subst h1
                exact hchain2
            · exact hso L x hx
          · split
            · exact hso
            · split
              · rename_i ll c hc so2 heq
                refine ih hrest so2 ?_
                have hlink2 : ∀ u, (cur.words ++ [nw]).getLast? = some u →
                    u.getLast? = some ll := by
                  intro u hu
                  rw [List.getLast?_concat] at hu
                  injection hu with hu
                  subst hu
                  exact c
                have h3 := hrec so ⟨cur.words ++ [nw], cur.coverage ∪ nw.toFinset⟩ ll hso
                  hchain2 hlink2
                rw [heq] at h3
                exact h3
              · rename_i ll c hc so2 heq
                have hlink2 : ∀ u, (cur.words ++ [nw]).getLast? = some u →
                    u.getLast? = some ll := by
                  intro u hu
                  rw [List.getLast?_concat] at hu
                  injection hu with hu
                  subst hu
                  exact c
                have h3 := hrec so ⟨cur.words ++ [nw], cur.coverage ∪ nw.toFinset⟩ ll hso
                  hchain2 hlink2
                rw [heq] at h3
                exact h3

theorem find_solutions_go_chained (p : Puzzle) (hp : good_puzzle p) :
    ∀ fuel so cur letter, chain_ok cur.words →
      (∀ u, cur.words.getLast? = some u → u.getLast? = some letter) →
      store_chained so → store_chained ((find_solutions_go fuel so p cur letter).1) := by
  intro fuel
  induction fuel with
  | zero => intro so cur letter _ _ hso; exact hso
  | succ fuel ih =>
      intro so cur letter hcur hlink hso
      simp only [find_solutions_go]
      split
      · exact hso
      · split
        · exact hso
        · rename_i ws hws
          exact find_loop_chained _ p cur letter hcur hlink
            (fun so2 s c hso2 hc2 hl2 => ih so2 s c hc2 hl2 hso2)
            ws (hp letter ws hws) so hso

/-- Claim C3: on a puzzle built by `Puzzle.build` (whose candidate lists under
a letter contain only words beginning with that letter), starting from a
valid partial chain whose next starting letter is the last word's last
letter, every solution in the store after the search is a valid chain:
adjacent words satisfy that the first word's last letter equals the next
word's first letter. -/
theorem spec_c3 (dictionary sides : List (List Char)) (solutions : Solutions)
    (current_solution : Solution) (starting_letter : Char) (L : Nat) (s : Solution)
    (hstore : store_chained solutions)
    (hcur : chain_ok current_solution.words)
    (hlink : ∀ u, current_solution.words.getLast? = some u →
      u.getLast? = some starting_letter)
    (h : s ∈ ((find_solutions solutions (Puzzle.build dictionary sides) current_solution
      starting_letter).1).sols_at L) :
    chain_ok s.words :=
  find_solutions_go_chained (Puzzle.build dictionary sides)
    (good_puzzle_build dictionary sides) _ solutions current_solution starting_letter
    hcur hlink hstore L s h

/-- Witness for C3 at a concrete input. -/
theorem spec_c3_witness :
    store_chained Solutions.empty ∧
      chain_ok ((⟨[], ∅⟩ : Solution)).words ∧
      (∀ u, ((⟨[], ∅⟩ : Solution)).words.getLast? = some u →
        u.getLast? = some 'a') ∧
      abaSolution ∈ ((find_solutions Solutions.empty
        (Puzzle.build [['a', 'b', 'a']] [['a'], ['b']]) ⟨[], ∅⟩ 'a').1).sols_at 1 ∧
      chain_ok abaSolution.words :=
  ⟨fun _ s hs => absurd hs (List.not_mem_nil s),
    List.chain'_nil,
    fun _ hu => Option.noConfusion hu,
    by decide,
    spec_c3 [['a', 'b', 'a']] [['a'], ['b']] Solutions.empty ⟨[], ∅⟩ 'a' 1 abaSolution
      (fun _ s hs => absurd hs (List.not_mem_nil s)) List.chain'_nil
      (fun _ hu => Option.noConfusion hu) (by decide)⟩

-- Machinery for Claim C9 (and C1): what the built trie marks as words.

theorem mem_empty_node (w : List Char) : (TrieNode.mk false .nil).mem w = false := by
  cases w with
  | nil => rfl
  | cons c rest => rfl

theorem childFor_setChild : ∀ (cs : TrieChildren) (letter : Char) (node : TrieNode)
    (c : Char), childFor (setChild cs letter node) c =
      if c = letter then some node else childFor cs c
  | .nil, letter, node, c => by
      by_cases h : c = letter
      · subst h; simp [setChild, childFor]
      · have h2 : ¬letter = c := fun hh => h hh.symm
        simp [setChild, childFor, h, h2]
  | .cons k t rest, letter, node, c => by
      by_cases h1 : k = letter
      · subst h1
        by_cases h2 : c = k
        · subst h2; simp [setChild, childFor]
        · have h2s : ¬k = c := fun hh => h2 hh.symm
          simp [setChild, childFor, h2, h2s]
      · by_cases h2 : k = c
        · have h3 : ¬c = letter := fun hh => h1 (h2.trans hh)
          simp [setChild, childFor, h1, h2, h3]
        · simp [setChild, childFor, h1, h2, childFor_setChild rest letter node c]

theorem mem_insert_word : ∀ (v : List Char) (t : TrieNode) (w : List Char),
    (insert_word t v).mem w = true ↔ w = v ∨ t.mem w = true
  | [], t, w => by
      obtain ⟨tb, tcs⟩ := t
      cases w with
      | nil => simp [insert_word, TrieNode.mem, TrieNode.is_word]
      | cons c rest =>
          simp only [insert_word, TrieNode.mem, TrieNode.children]
          exact ⟨fun h => .inr h, fun h => h.resolve_left (List.cons_ne_nil c rest)⟩
  | a :: rem, t, w => by
      obtain ⟨tb, tcs⟩ := t
      cases w with
      | nil =>
          simp only [insert_word, TrieNode.mem, TrieNode.is_word]
          exact ⟨fun h => .inr h,
            fun h => h.resolve_left fun hh => List.cons_ne_nil a rem hh.symm⟩
      | cons c rest =>
          simp only [insert_word, TrieNode.mem, TrieNode.children, childFor_setChild]
          by_cases hca : c = a
          · subst hca
            rw [if_pos rfl]
            simp only [Option.map_some', Option.getD_some]
            rw [mem_insert_word rem _ rest]
            cases hch : childFor tcs c with
            | none => simp [hch, mem_empty_node]
            | some ch => simp [hch]
          · rw [if_neg hca]
            constructor
            · intro h
              exact .inr h
            · rintro (h | h)
              · injection h with h1 h2
                exact absurd h1 hca
              · exact h

theorem mem_build_trie (dictionary : List (List Char)) (A : Finset Char) (w : List Char) :
    (build_trie dictionary A).mem w = true ↔
      w ∈ dictionary ∧ ('-' : Char) ∉ w ∧ ∀ c ∈ w, c ∈ A := by
  have key : ∀ (d : List (List Char)) (t : TrieNode),
      (d.foldl (fun trie word => if ('-' : Char) ∈ word then trie
        else if ∀ c ∈ word, c ∈ A then insert_word trie word else trie) t).mem w = true ↔
      (t.mem w = true ∨ (w ∈ d ∧ ('-' : Char) ∉ w ∧ ∀ c ∈ w, c ∈ A)) := by
    intro d
    induction d with
    | nil =>
        intro t
        simp
    | cons v rest ih =>
        intro t
        simp only [List.foldl_cons]
        rw [ih]
        by_cases h1 : ('-' : Char) ∈ v
        · rw [if_pos h1]
          simp only [List.mem_cons]
          constructor
          · rintro (h | h)
            · exact .inl h
            · exact .inr ⟨.inr h.1, h.2⟩
          · rintro (h | ⟨hv, hsep, hsub⟩)
            · exact .inl h
            · rcases hv with rfl | hv
              · exact absurd h1 hsep
              · exact .inr ⟨hv, hsep, hsub⟩
        · rw [if_neg h1]
          by_cases h2 : ∀ c ∈ v, c ∈ A
          · rw [if_pos h2]
            simp only [List.mem_cons]
            rw [mem_insert_word]
            constructor
            · rintro ((rfl | h) | h)
              · exact .inr ⟨.inl rfl, h1, h2⟩
              · exact .inl h
              · exact .inr ⟨.inr h.1, h.2⟩
            · rintro (h | ⟨hv, hsep, hsub⟩)
              · exact .inl (.inr h)
              · rcases hv with rfl | hv
                · exact .inl (.inl rfl)
                · exact .inr ⟨hv, hsep, hsub⟩
          · rw [if_neg h2]
            simp only [List.mem_cons]
            constructor
            · rintro (h | h)
              · exact .inl h
              · exact .inr ⟨.inr h.1, h.2⟩
            · rintro (h | ⟨hv, hsep, hsub⟩)
              · exact .inl h
              · rcases hv with rfl | hv
                · exact absurd hsub h2
                · exact .inr ⟨hv, hsep, hsub⟩
  rw [build_trie, key]
  rw [mem_empty_node]
  simp

/-- Counterexample for Claim C9: the empty string passes both trie filters, so
`build_trie` does mark a path for it — the root becomes word-terminal. -/
theorem spec_c9_cex : (build_trie [([] : List Char)] ∅).mem [] = true := by decide

/-- Claim C9 (amended): trie construction marks no path terminal for an entry
containing the separator character or an entry using a letter outside the
available alphabet; the empty string, however, passes both filters and marks
the root terminal. -/
theorem spec_c9 (dictionary : List (List Char)) (A : Finset Char) (w : List Char)
    (h : ('-' : Char) ∈ w ∨ ¬∀ c ∈ w, c ∈ A) :
    (build_trie dictionary A).mem w = false := by
  cases hb : (build_trie dictionary A).mem w with
  | false => rfl
  | true =>
      rcases (mem_build_trie dictionary A w).mp hb with ⟨-, hsep, hsub⟩
      rcases h with h | h
      · exact absurd h hsep
      · exact absurd hsub h
      
/-- Witness for C9 at a concrete input. -/
theorem spec_c9_witness :
    (('-' : Char) ∈ (['a', '-', 'b'] : List Char) ∨
        ¬∀ c ∈ (['a', '-', 'b'] : List Char), c ∈ ({'a', 'b'} : Finset Char)) ∧
      (build_trie [['a', '-', 'b']] {'a', 'b'}).mem ['a', '-', 'b'] = false :=
  ⟨by decide,
    spec_c9 [['a', '-', 'b']] {'a', 'b'} ['a', '-', 'b'] (by decide)⟩

-- Machinery for Claim C1: exact characterization of candidate discovery.

theorem TrieNode.size_pos : ∀ t : TrieNode, 1 ≤ t.size
  | .mk _ cs => by simp only [TrieNode.size]; omega

theorem TrieNode.size_eq : ∀ t : TrieNode, t.size = 1 + t.children.size
  | .mk _ _ => rfl

theorem childFor_size : ∀ (cs : TrieChildren) (c : Char) (t : TrieNode),
    childFor cs c = some t → t.size < cs.size
  | .nil, c, t, h => by simp [childFor] at h
  | .cons k u rest, c, t, h => by
      simp only [childFor] at h
      split at h
      · injection h with h2
        subst h2
        simp only [TrieChildren.size]
        omega
      · have h3 := childFor_size rest c t h
        simp only [TrieChildren.size]
        omega

theorem flatMap_ext {α β : Type} : ∀ (l : List α) (f g : α → List β),
    (∀ a ∈ l, f a = g a) → l.flatMap f = l.flatMap g
  | [], _, _, _ => rfl
  | a :: tl, f, g, h => by
      simp only [List.flatMap_cons]
      rw [h a (List.mem_cons_self a tl), flatMap_ext tl f g
        (fun x hx => h x (List.mem_cons_of_mem a hx))]

theorem find_wordsF_stable : ∀ (n m : Nat) (sides : List (List Char)) (word : List Char)
    (node : TrieNode) (fs : Nat), node.size ≤ n → node.size ≤ m →
    find_wordsF n sides word node fs = find_wordsF m sides word node fs := by
  intro n
  induction n with
  | zero =>
      intro m sides word node fs hn _
      exact absurd (Nat.le_trans (TrieNode.size_pos node) hn) (by omega)
  | succ n ih =>
      intro m sides word node fs hn hm
      obtain ⟨m2, rfl⟩ : ∃ m2, m = m2 + 1 :=
        ⟨m - 1, by have := TrieNode.size_pos node; omega⟩
      simp only [find_wordsF]
      congr 1
      refine flatMap_ext _ _ _ ?_
      intro si _
      split
      · rfl
      · refine flatMap_ext _ _ _ ?_
        intro letter _
        cases hch : childFor node.children letter with
        | none => rfl
        | some child =>
            have h1 := childFor_size node.children letter child hch
            have h2 := TrieNode.size_eq node
            exact ih m2 sides (word ++ [letter]) child si.1 (by omega) (by omega)

/-- The source recurrence of `find_words`: for each side other than the
current one and each of its letters with a child in the trie, recurse with
the extended word; then record the accumulated word if it is a word of
length at least 3. -/
theorem find_words_eq (sides : List (List Char)) (word : List Char) (word_node : TrieNode)
    (from_side : Nat) :
    find_words sides word word_node from_side =
      (sides.enum.flatMap fun si =>
        if si.1 = from_side then []
        else
          si.2.flatMap fun letter =>
            match childFor word_node.children letter with
            | none => []
            | some child => find_words sides (word ++ [letter]) child si.1) ++
      (if word_node.is_word = true ∧ 3 ≤ word.length then [word] else []) := by
  show find_wordsF word_node.size sides word word_node from_side = _
  obtain ⟨k, hk⟩ : ∃ k, word_node.size = k + 1 :=
    ⟨word_node.size - 1, by have := TrieNode.size_pos word_node; omega⟩
  rw [hk]
  simp only [find_wordsF]
  congr 1
  refine flatMap_ext _ _ _ ?_
  intro si _
  split
  · rfl
  · refine flatMap_ext _ _ _ ?_
    intro letter _
    cases hch : childFor word_node.children letter with
    | none => rfl
    | some child =>
        show find_wordsF k sides (word ++ [letter]) child si.1 =
          find_wordsF child.size sides (word ++ [letter]) child si.1
        refine find_wordsF_stable k child.size sides (word ++ [letter]) child si.1 ?_
          (Nat.le_refl _)
        have h1 := childFor_size word_node.children letter child hch
        have h2 := TrieNode.size_eq word_node
        omega

/-- Exact characterization of candidate discovery: `w` is returned from the
accumulated word `word` at node `node` coming from side `fs` exactly when
`w` extends `word` by a trie path `q` ending on a marked word, has total
length at least 3, and `q` side-alternates starting against `fs`. -/
theorem mem_find_words : ∀ (n : Nat) (node : TrieNode), node.size ≤ n →
    ∀ (sides : List (List Char)) (word : List Char) (fs : Nat) (w : List Char),
    (w ∈ find_words sides word node fs ↔
      ∃ q, w = word ++ q ∧ node.mem q = true ∧ 3 ≤ word.length + q.length ∧
        extAlt sides fs q) := by
  intro n
  induction n with
  | zero =>
      intro node h
      exact absurd (Nat.le_trans (TrieNode.size_pos node) h) (by omega)
  | succ n ih =>
      intro node hn sides word fs w
      rw [find_words_eq, List.mem_append]
      constructor
      · rintro (h | h)
        · rw [List.mem_flatMap] at h
          obtain ⟨si, hsi, h⟩ := h
          obtain ⟨i, side⟩ := si
          rw [List.mem_enum_iff_getElem?] at hsi
          split at h
          · exact absurd h (List.not_mem_nil w)
          · rename_i hne
            rw [List.mem_flatMap] at h
            obtain ⟨letter, hletter, h⟩ := h
            split at h
            · exact absurd h (List.not_mem_nil w)
            · rename_i child hch
              have hsz : child.size ≤ n := by
                have h1 := childFor_size node.children letter child hch
                have h2 := TrieNode.size_eq node
                omega
              rw [ih child hsz sides (word ++ [letter]) i w] at h
              obtain ⟨q, hq, hmem, hlen, halt⟩ := h
              refine ⟨letter :: q, ?_, ?_, ?_, ?_⟩
              · rw [hq, List.append_assoc, List.singleton_append]
              · simp only [TrieNode.mem, hch, Option.map_some', Option.getD_some]
                exact hmem
              · simp only [List.length_append, List.length_cons, List.length_nil] at hlen ⊢
                omega
              · exact ⟨i, side, hsi, hne, hletter, halt⟩
        · split at h
          · rename_i hcond
            rw [List.mem_singleton] at h
            subst h
            refine ⟨[], by rw [List.append_nil], hcond.1, ?_, trivial⟩
            simp only [List.length_nil]
            omega
          · exact absurd h (List.not_mem_nil w)
      · rintro ⟨q, hq, hmem, hlen, halt⟩
        cases q with
        | nil =>
            right
            have hwl : 3 ≤ word.length := by
              simp only [List.length_nil] at hlen
              omega
            rw [if_pos ⟨hmem, hwl⟩, List.mem_singleton, hq, List.append_nil]
        | cons c q2 =>
            left
            obtain ⟨i, side, hside, hne, hc, halt2⟩ := halt
            rw [List.mem_flatMap]
            refine ⟨(i, side), ?_, ?_⟩
            · rw [List.mem_enum_iff_getElem?]
              exact hside
            · dsimp only
              rw [if_neg hne, List.mem_flatMap]
              refine ⟨c, hc, ?_⟩
              simp only [TrieNode.mem] at hmem
              cases hch : childFor node.children c with
              | none => rw [hch] at hmem; simp at hmem
              | some child =>
                  rw [hch] at hmem
                  simp only [Option.map_some', Option.getD_some] at hmem
                  show w ∈ find_words sides (word ++ [c]) child i
                  have hsz : child.size ≤ n := by
                    have h1 := childFor_size node.children c child hch
                    have h2 := TrieNode.size_eq node
                    omega
                  rw [ih child hsz sides (word ++ [c]) i w]
                  refine ⟨q2, ?_, hmem, ?_, halt2⟩
                  · rw [hq, List.append_assoc, List.singleton_append]
                  · simp only [List.length_append, List.length_cons,
                      List.length_nil] at hlen ⊢
                    omega

theorem mem_of_lookup {sides : List (List Char)} {i : Nat} {sd : List Char}
    (h : sides[i]? = some sd) : sd ∈ sides := by
  obtain ⟨hlt, hv⟩ := List.getElem?_eq_some.mp h
  exact hv ▸ List.getElem_mem hlt

theorem sides_disjoint_unique {sides : List (List Char)} (hd : sides_disjoint sides)
    {i j : Nat} {si sj : List Char} (hi : sides[i]? = some si) (hj : sides[j]? = some sj)
    {c : Char} (hci : c ∈ si) (hcj : c ∈ sj) : i = j := by
  rw [sides_disjoint, List.pairwise_iff_getElem] at hd
  obtain ⟨hilt, hival⟩ := List.getElem?_eq_some.mp hi
  obtain ⟨hjlt, hjval⟩ := List.getElem?_eq_some.mp hj
  rcases Nat.lt_trichotomy i j with h | h | h
  · have hR := hd i j hilt hjlt h
    rw [hival, hjval] at hR
    exact absurd hcj (hR c hci)
  · exact h
  · have hR := hd j i hjlt hilt h
    rw [hival, hjval] at hR
    exact absurd hci (hR c hcj)

theorem extAlt_chain {sides : List (List Char)} (hd : sides_disjoint sides) :
    ∀ (q : List Char) (fs : Nat) (a : Char) (sf : List Char),
      sides[fs]? = some sf → a ∈ sf → extAlt sides fs q →
      List.Chain' (fun x y => ∀ side ∈ sides, ¬(x ∈ side ∧ y ∈ side)) (a :: q) := by
  intro q
  induction q with
  | nil => intro fs a sf _ _ _; exact List.chain'_singleton a
  | cons c rest ih =>
      intro fs a sf hsf ha halt
      obtain ⟨i, side, hside, hne, hc, halt2⟩ := halt
      rw [List.chain'_cons]
      constructor
      · intro sd hsd hmm
        obtain ⟨hasd, hcsd⟩ := hmm
        obtain ⟨j, hj, hjv⟩ := List.getElem_of_mem hsd
        have hjq : sides[j]? = some sd := List.getElem?_eq_some.mpr ⟨hj, hjv⟩
        have h1 : j = fs := sides_disjoint_unique hd hjq hsf hasd ha
        have h2 : j = i := sides_disjoint_unique hd hjq hside hcsd hc
        exact hne (by omega)
      · exact ih i c side hside hc halt2

theorem chain_extAlt {sides : List (List Char)} :
    ∀ (q : List Char) (fs : Nat) (a : Char) (sf : List Char),
      sides[fs]? = some sf → a ∈ sf →
      List.Chain' (fun x y => ∀ side ∈ sides, ¬(x ∈ side ∧ y ∈ side)) (a :: q) →
      (∀ c ∈ q, ∃ (j : Nat) (sj : List Char), sides[j]? = some sj ∧ c ∈ sj) →
      extAlt sides fs q := by
  intro q
  induction q with
  | nil => intro fs a sf _ _ _ _; trivial
  | cons c rest ih =>
      intro fs a sf hsf ha hchain hall
      obtain ⟨j, sj, hj, hcj⟩ := hall c (List.mem_cons_self c rest)
      rw [List.chain'_cons] at hchain
      obtain ⟨hrel, hchain2⟩ := hchain
      refine ⟨j, sj, hj, ?_, hcj, ?_⟩
      · intro heq
        subst heq
        rw [hsf] at hj
        injection hj with hj
        subst hj
        exact hrel sf (mem_of_lookup hsf) ⟨ha, hcj⟩
      · exact ih j c sj hj hcj hchain2 (fun x hx => hall x (List.mem_cons_of_mem _ hx))

/-- Claim C1: for pairwise letter-disjoint sides and a starting letter `L` on
side `S` that has a child in the filtered trie, candidate discovery returns
exactly the strings `w` that are marked words of the filtered trie, begin
with `L`, have length at least 3, and have no two consecutive letters on the
same side — sound and exhaustive. -/
theorem spec_c1 (dictionary sides : List (List Char)) (L : Char) (S : Nat)
    (sideS : List Char) (child : TrieNode) (w : List Char)
    (hdisj : sides_disjoint sides)
    (hS : sides[S]? = some sideS) (hL : L ∈ sideS)
    (hchild : childFor (build_trie dictionary sides.flatten.toFinset).children L =
      some child) :
    w ∈ find_words sides [L] child S ↔
      ((build_trie dictionary sides.flatten.toFinset).mem w = true ∧ w.head? = some L ∧
        3 ≤ w.length ∧ sideAlt sides w) := by
  rw [mem_find_words child.size child (Nat.le_refl _) sides [L] S w]
  constructor
  · rintro ⟨q, rfl, hmem, hlen, halt⟩
    rw [List.singleton_append]
    refine ⟨?_, rfl, ?_, ?_⟩
    · simp only [TrieNode.mem, hchild, Option.map_some', Option.getD_some]
      exact hmem
    · simp only [List.length_cons]
      simp only [List.length_cons, List.length_nil] at hlen
      omega
    · exact extAlt_chain hdisj q S L sideS hS hL halt
  · rintro ⟨hmem, hhead, hlen, halt⟩
    obtain ⟨q, rfl⟩ : ∃ q, w = L :: q := by
      cases w with
      | nil => exact absurd hhead (by simp)
      | cons a tl =>
          refine ⟨tl, ?_⟩
          simp only [List.head?_cons] at hhead
          injection hhead with hhead
          rw [hhead]
    have hletters := ((mem_build_trie dictionary sides.flatten.toFinset (L :: q)).mp hmem).2.2
    refine ⟨q, (List.singleton_append).symm, ?_, ?_, ?_⟩
    · simp only [TrieNode.mem, hchild, Option.map_some', Option.getD_some] at hmem
      exact hmem
    · simp only [List.length_cons] at hlen
      simp only [List.length_cons, List.length_nil]
      omega
    · refine chain_extAlt q S L sideS hS hL halt ?_
      intro c hc
      have hcf : c ∈ sides.flatten.toFinset := hletters c (List.mem_cons_of_mem _ hc)
      rw [List.mem_toFinset, List.mem_flatten] at hcf
      obtain ⟨sd, hsd, hcsd⟩ := hcf
      obtain ⟨j, hj, hjv⟩ := List.getElem_of_mem hsd
      exact ⟨j, sd, List.getElem?_eq_some.mpr ⟨hj, hjv⟩, hcsd⟩

/-- Witness for C1 at a concrete input. -/
theorem spec_c1_witness :
    sides_disjoint c8Sides ∧
      c8Sides[0]? = some ['c', 'b'] ∧
      'c' ∈ (['c', 'b'] : List Char) ∧
      childFor (build_trie c8Dict c8Sides.flatten.toFinset).children 'c' = some c8TrieC ∧
      (['c', 'a', 't'] ∈ find_words c8Sides ['c'] c8TrieC 0 ↔
        ((build_trie c8Dict c8Sides.flatten.toFinset).mem ['c', 'a', 't'] = true ∧
          (['c', 'a', 't'] : List Char).head? = some 'c' ∧
          3 ≤ (['c', 'a', 't'] : List Char).length ∧ sideAlt c8Sides ['c', 'a', 't'])) :=
  ⟨by decide, by decide, by decide, by rfl,
    spec_c1 c8Dict c8Sides 'c' 0 ['c', 'b'] c8TrieC ['c', 'a', 't'] (by decide) (by decide)
      (by decide) (by rfl)⟩

-- Fidelity of the fuel wrapper: `find_solutions` satisfies the recurrence of
-- the source program, with the recursive call being `find_solutions` itself.

theorem find_loop_congr (recur recur2 : Solutions → Solution → Char → Solutions × Bool)
    (p : Puzzle) (cur : Solution)
    (h : ∀ so (nw : List Char) c,
      recur so ⟨cur.words ++ [nw], cur.coverage ∪ nw.toFinset⟩ c =
        recur2 so ⟨cur.words ++ [nw], cur.coverage ∪ nw.toFinset⟩ c) :
    ∀ ws so, find_loop recur p cur so ws = find_loop recur2 p cur so ws := by
  intro ws
  induction ws with
  | nil => intro so; rfl
  | cons nw rest ih =>
      intro so
      simp only [find_loop]
      split
      · rfl
      · split
        · exact ih so
        · split
          · rfl
          · split
            · rfl
            · rename_i ll hll
              rw [← h so nw ll]
              rcases heq : recur so ⟨cur.words ++ [nw], cur.coverage ∪ nw.toFinset⟩ ll
                with ⟨so2, b⟩
              cases b
              · rfl
              · exact ih so2

/-- The source recurrence of `find_solutions`: return when the chain already
has `max_length` words, return when the next length is saturated, raise a
`KeyError` (flag `false`) when the starting letter has no candidate entry,
and otherwise run the candidate loop whose recursive continuation is
`find_solutions` itself. -/
theorem find_solutions_eq (solutions : Solutions) (puzzle : Puzzle)
    (current_solution : Solution) (starting_letter : Char) :
    find_solutions solutions puzzle current_solution starting_letter =
      if max_length ≤ current_solution.length then (solutions, true)
      else if max_count ≤ solutions.count (current_solution.length + 1) then
        (solutions, true)
      else
        match alook puzzle.all_possible_words starting_letter with
        | none => (solutions, false)
        | some all_words =>
            find_loop (fun so s c => find_solutions so puzzle s c) puzzle current_solution
              solutions all_words := by
  by_cases h : max_length ≤ current_solution.length
  · rw [if_pos h]
    show find_solutions_go (max_length - current_solution.length) _ _ _ _ = _
    have h0 : max_length - current_solution.length = 0 := by omega
    rw [h0]
    rfl
  · rw [if_neg h]
    have hlt : current_solution.length < max_length := by omega
    obtain ⟨fuel, hfuel⟩ : ∃ fuel, max_length - current_solution.length = fuel + 1 :=
      ⟨max_length - current_solution.length - 1, by omega⟩
    show find_solutions_go (max_length - current_solution.length) _ _ _ _ = _
    rw [hfuel]
    simp only [find_solutions_go]
    split
    · rfl
    · split
      · rfl
      · rename_i ws hws
        refine find_loop_congr _ _ puzzle current_solution ?_ ws solutions
        intro so nw c
        have hfuel2 : max_length - current_solution.words.length = fuel + 1 := hfuel
        have hlen2 : max_length - (⟨current_solution.words ++ [nw],
            current_solution.coverage ∪ nw.toFinset⟩ : Solution).length = fuel := by
          simp only [Solution.length, List.length_append, List.length_cons,
            List.length_nil]
          omega
        show find_solutions_go fuel so puzzle
            ⟨current_solution.words ++ [nw], current_solution.coverage ∪ nw.toFinset⟩ c =
          find_solutions_go (max_length - (⟨current_solution.words ++ [nw],
            current_solution.coverage ∪ nw.toFinset⟩ : Solution).length) so puzzle
            ⟨current_solution.words ++ [nw], current_solution.coverage ∪ nw.toFinset⟩ c
        rw [hlen2]
